import Mathlib

/-!
Verification of the glimpse change-detection pipeline.

Go strings are modelled as lists of characters (`GoStr`); paths are Unix
paths with separator '/'.  Pure functions of the repository are translated
definition by definition; external collaborators (the OS notification
primitive, the Go standard library glob matcher `filepath.Match`, and the
`git`/log/LLM providers, whose implementations are shelled-out I/O) enter as
oracle parameters.  Channel-driven goroutines are modelled as transition
functions over the sequence of select-case outcomes they service.
-/

namespace Glimpse

abbrev GoStr := List Char

/-- Go `strings.HasSuffix s suf`: `len(s) >= len(suf) && s[len(s)-len(suf):] == suf`. -/
def hasSuffix (s suf : GoStr) : Bool :=
  suf.length ≤ s.length && decide (s.drop (s.length - suf.length) = suf)

/-- Go `strings.TrimSuffix s suf`: drop the suffix when present, else return `s`. -/
def trimSuffix (s suf : GoStr) : GoStr :=
  if hasSuffix s suf then s.take (s.length - suf.length) else s

/-- Go `strings.HasPrefix s pre`: `len(s) >= len(pre) && s[:len(pre)] == pre`. -/
def hasPfx (s pre : GoStr) : Bool :=
  pre.length ≤ s.length && decide (s.take pre.length = pre)

/-- Go `strings.TrimPrefix s pre`: drop the leading `pre` when present, else return `s`. -/
def trimPfx (s pre : GoStr) : GoStr :=
  if hasPfx s pre then s.drop pre.length else s

/-- Go `strings.Contains s sub`: substring containment. -/
def goContains (s sub : GoStr) : Bool :=
  decide (List.IsInfix sub s)

/-- Split a path at '/' characters (components of `path.Clean`'s scan). -/
def splitSlash (p : GoStr) : List GoStr :=
  p.foldr
    (fun c acc =>
      match acc with
      | [] => [[c]]
      | cur :: rest => if c = '/' then [] :: cur :: rest else (c :: cur) :: rest)
    [[]]

/-- The element-stack pass of Go `path.Clean`: drop empty and "." components,
let ".." pop a previous real component, keep leading ".."s when the path is
not rooted and drop them when it is. -/
def cleanStack (rooted : Bool) (comps : List GoStr) : List GoStr :=
  comps.foldl
    (fun out c =>
      if c = [] ∨ c = ['.'] then out
      else if c = ['.', '.'] then
        if out ≠ [] ∧ out.getLast? ≠ some ['.', '.'] then out.dropLast
        else if rooted then out else out ++ [c]
      else out ++ [c])
    []

/-- Join components back with '/' separators. -/
def joinComps (comps : List GoStr) : GoStr :=
  (comps.intersperse ['/']).flatten

/-- Model of Go `path/filepath.Clean` on Unix paths: lexical cleaning of the
path (empty path becomes ".", duplicate slashes collapse, "." and ".."
elements are resolved, rooted paths keep their leading '/'). -/
def goClean (p : GoStr) : GoStr :=
  if p = [] then ['.']
  else
    let rooted : Bool := decide (p.head? = some '/')
    let body := joinComps (cleanStack rooted (splitSlash p))
    if rooted then '/' :: body
    else if body = [] then ['.'] else body

/-- Model of Go `path/filepath.Base` on Unix paths: "." for the empty path,
otherwise strip trailing slashes and keep everything after the last '/'
("/" when the path consists only of slashes). -/
def goBase (p : GoStr) : GoStr :=
  if p = [] then ['.']
  else
    let q := (p.reverse.dropWhile (fun c => c = '/')).reverse
    if q = [] then ['/']
    else (q.reverse.takeWhile (fun c => c ≠ '/')).reverse

/-- Model of Go `path/filepath.Dir` on Unix paths: `Clean` of everything up to
and including the final '/' ("." when the path has no '/'). -/
def goDir (p : GoStr) : GoStr :=
  goClean ((p.reverse.dropWhile (fun c => c ≠ '/')).reverse)

/-- Model of Go `path/filepath.Join` restricted to two elements, as used by
`watcher.normalizePath`: join the non-empty elements with '/' and `Clean` the
result ("" when both are empty). -/
def goJoin (a b : GoStr) : GoStr :=
  if a = [] then (if b = [] then [] else goClean b)
  else goClean (a ++ '/' :: b)

/-! Constant strings of `watcher.normalizePath`. -/

def tildeStr : GoStr := ['~']

def swpStr : GoStr := ['.', 's', 'w', 'p']

def tmpStr : GoStr := ['.', 't', 'm', 'p']

def dotHashStr : GoStr := ['.', '#']

def hashStr : GoStr := ['#']

/-- `watcher.normalizePath` (src/watcher/watcher.go lines 313-339): collapse
editor temporary files onto the file they shadow.  Five guarded returns, in
source order: trailing "~", trailing ".swp", trailing ".tmp", basename
starting with ".#", basename starting and ending with "#"; otherwise the path
is returned unchanged. -/
def normalizePath (path : GoStr) : GoStr :=
  if hasSuffix path tildeStr then trimSuffix path tildeStr
  else if hasSuffix path swpStr then trimSuffix path swpStr
  else if hasSuffix path tmpStr then trimSuffix path tmpStr
  else if hasPfx (goBase path) dotHashStr then
    goJoin (goDir path) (trimPfx (goBase path) dotHashStr)
  else if hasPfx (goBase path) hashStr && hasSuffix (goBase path) hashStr then
    goJoin (goDir path) (trimSuffix (trimPfx (goBase path) hashStr) hashStr)
  else path

/-- The maximal '/'-free suffix of a path: the spec's "basename" read
literally (no trailing-slash stripping). -/
def rawBase (p : GoStr) : GoStr :=
  (p.reverse.takeWhile (fun c => c ≠ '/')).reverse

/-- Everything before `rawBase`, including the final '/' (kept verbatim, not
cleaned). -/
def rawDirPart (p : GoStr) : GoStr :=
  (p.reverse.dropWhile (fun c => c ≠ '/')).reverse

/-- The PathNormalizer contract as the spec words it (§4.1): apply the first
matching rule of the ordered list and stop; rule 5 requires the basename to
have length > 1; rules 4 and 5 edit the basename only, leaving the rest of
the path untouched.  This definition follows the spec's words, for comparison
with the source's `normalizePath`. -/
def specNormalizePath (p : GoStr) : GoStr :=
  if hasSuffix p tildeStr then trimSuffix p tildeStr
  else if hasSuffix p swpStr then trimSuffix p swpStr
  else if hasSuffix p tmpStr then trimSuffix p tmpStr
  else if hasPfx (rawBase p) dotHashStr then
    rawDirPart p ++ trimPfx (rawBase p) dotHashStr
  else if hasPfx (rawBase p) hashStr && hasSuffix (rawBase p) hashStr
      && 1 < (rawBase p).length then
    rawDirPart p ++ trimSuffix (trimPfx (rawBase p) hashStr) hashStr
  else p

/-- A normalization rule: a test on the path and the rewrite applied when the
test is the first one to succeed. -/
structure NormRule where
  test : GoStr → Bool
  act : GoStr → GoStr

/-- Apply the first rule whose test succeeds and stop; identity when no rule
matches. -/
def applyFirstRule : List NormRule → GoStr → GoStr
  | [], p => p
  | r :: rs, p => if r.test p then r.act p else applyFirstRule rs p

/-- The five rules of `watcher.normalizePath`, in source order. -/
def codeNormRules : List NormRule :=
  [⟨fun p => hasSuffix p tildeStr, fun p => trimSuffix p tildeStr⟩,
   ⟨fun p => hasSuffix p swpStr, fun p => trimSuffix p swpStr⟩,
   ⟨fun p => hasSuffix p tmpStr, fun p => trimSuffix p tmpStr⟩,
   ⟨fun p => hasPfx (goBase p) dotHashStr,
    fun p => goJoin (goDir p) (trimPfx (goBase p) dotHashStr)⟩,
   ⟨fun p => hasPfx (goBase p) hashStr && hasSuffix (goBase p) hashStr,
    fun p => goJoin (goDir p) (trimSuffix (trimPfx (goBase p) hashStr) hashStr)⟩]

example : normalizePath ['d', '.', 'l', 'o', 'g', '~'] = ['d', '.', 'l', 'o', 'g'] := by decide

example : normalizePath ['m', '.', 'g', 'o', '.', 's', 'w', 'p'] = ['m', '.', 'g', 'o'] := by decide

example : normalizePath ['.', '#', 'l', '.', 'g', 'o'] = ['l', '.', 'g', 'o'] := by decide

example : normalizePath ['#', 'a', '.', 'g', 'o', '#'] = ['a', '.', 'g', 'o'] := by decide

example :
    normalizePath ['/', 'p', '/', 'd', '.', 'l', 'o', 'g', '~']
      = ['/', 'p', '/', 'd', '.', 'l', 'o', 'g'] := by decide

example : normalizePath ['#'] = ['.'] := by decide

example : specNormalizePath ['#'] = ['#'] := by decide

/-! ## EventBatcher (main.startBatcher, src/unnamed/part_001 lines 153-204) -/

/-- `watcher.FileEvent` (src/watcher/watcher.go lines 28-30). -/
structure FileEvent where
  Path : GoStr
deriving DecidableEq, Repr

/-- `maxBatchSize` constant of package main (src/unnamed/part_001 line 28). -/
def maxBatchSize : Nat := 100

/-- One select-case outcome serviced by `startBatcher`'s goroutine: the `done`
channel, an event from the watcher's `events` channel, or the timer firing. -/
inductive BatcherInput where
  | done
  | ev (e : FileEvent)
  | timer
deriving DecidableEq, Repr

/-- The sequence of batches `startBatcher`'s goroutine sends on `out`, given
the pending accumulator `batch` and the sequence of select-case outcomes it
services.  Translated case by case from src/unnamed/part_001 lines 172-202:
on `done`, flush a non-empty accumulator and return; on an event, append it
and flush immediately when the accumulator has reached `maxBatchSize` (the
size check precedes the timer rearm); on the timer, flush a non-empty
accumulator.  Timer arming (debounce vs. the one-hour idle duration) only
decides which instants a `timer` outcome can occur at; the emission sequence
depends only on the outcome order, so the timer is left adversarial here. -/
def batcherRun (batch : List FileEvent) : List BatcherInput → List (List FileEvent)
  | [] => []
  | BatcherInput.done :: _ => if batch.length > 0 then [batch] else []
  | BatcherInput.ev e :: rest =>
      if maxBatchSize ≤ (batch ++ [e]).length then (batch ++ [e]) :: batcherRun [] rest
      else batcherRun (batch ++ [e]) rest
  | BatcherInput.timer :: rest =>
      if batch.length > 0 then batch :: batcherRun [] rest
      else batcherRun batch rest

/-- Split a list into consecutive chunks of size `k` (the last one possibly
shorter).  Reference shape for the batcher's emission sequence. -/
def chunkList {α : Type} (k : Nat) : List α → List (List α)
  | [] => []
  | x :: xs => (x :: xs).take k :: chunkList k (xs.drop (k - 1))
termination_by l => l.length
decreasing_by
  simp only [List.length_drop, List.length_cons]
  omega

theorem chunkList_nil {α : Type} (k : Nat) : chunkList (α := α) k [] = [] := by
  simp [chunkList]

theorem chunkList_ne_nil {α : Type} (k : Nat) (l : List α) (hl : l ≠ []) (hk : 0 < k) :
    chunkList k l = l.take k :: chunkList k (l.drop k) := by
  match l with
  | [] => exact absurd rfl hl
  | x :: xs =>
    rw [chunkList]
    obtain ⟨k, rfl⟩ := Nat.exists_eq_add_of_lt hk
    simp [List.drop_succ_cons]

theorem chunkList_short {α : Type} (k : Nat) (l : List α) (hl : l ≠ [])
    (hk : 0 < k) (hlen : l.length ≤ k) : chunkList k l = [l] := by
  rw [chunkList_ne_nil k l hl hk, List.take_of_length_le hlen,
    List.drop_eq_nil_of_le hlen, chunkList_nil]

theorem chunkList_flatten {α : Type} (k : Nat) (hk : 0 < k) (l : List α) :
    (chunkList k l).flatten = l := by
  induction l using chunkList.induct k with
  | case1 => simp [chunkList]
  | case2 x xs ih =>
    rw [chunkList, List.flatten_cons, ih]
    obtain ⟨j, rfl⟩ := Nat.exists_eq_add_of_lt hk
    simp [List.take_succ_cons, List.take_append_drop]

theorem chunkList_length {α : Type} (k : Nat) (hk : 0 < k) (l : List α) :
    (chunkList k l).length = (l.length + k - 1) / k := by
  induction l using chunkList.induct k with
  | case1 =>
    rw [chunkList_nil]
    simp [Nat.div_eq_of_lt (by omega : k - 1 < k)]
  | case2 x xs ih =>
    rw [chunkList, List.length_cons, ih]
    rw [List.length_drop, List.length_cons]
    rw [Nat.div_eq_sub_div hk (by omega : k ≤ xs.length + 1 + k - 1)]
    rcases Nat.lt_or_ge xs.length k with hsm | hbig
    · have h1 : xs.length - (k - 1) = 0 := by omega
      have h2 : xs.length + 1 + k - 1 - k = xs.length := by omega
      rw [h1, h2]
      simp [Nat.div_eq_of_lt hsm, Nat.div_eq_of_lt (show k - 1 < k by omega)]
    · have h2 : xs.length + 1 + k - 1 - k = xs.length - (k - 1) + k - 1 := by omega
      rw [h2]

theorem chunkList_sizes {α : Type} (k : Nat) (hk : 0 < k) (l : List α) :
    ∀ c ∈ chunkList k l, 0 < c.length ∧ c.length ≤ k := by
  induction l using chunkList.induct k with
  | case1 => simp [chunkList_nil]
  | case2 x xs ih =>
    rw [chunkList]
    intro c hc
    rcases List.mem_cons.mp hc with rfl | hc
    · constructor
      · simp [List.length_take]
        omega
      · simp [List.length_take]
    · exact ih c hc

theorem chunkList_full_chunks {α : Type} (k : Nat) (hk : 0 < k) (l : List α) :
    ∀ c ∈ (chunkList k l).take (l.length / k), c.length = k := by
  induction l using chunkList.induct k with
  | case1 => simp [chunkList_nil]
  | case2 x xs ih =>
    rw [chunkList]
    rcases Nat.lt_or_ge (xs.length + 1) k with hsm | hbig
    · rw [List.length_cons, Nat.div_eq_of_lt hsm]
      simp
    · rw [List.length_cons, Nat.div_eq_sub_div hk hbig, List.take_succ_cons]
      intro c hc
      rcases List.mem_cons.mp hc with rfl | hc
      · simp [List.length_take]
        omega
      · have hlen : xs.length + 1 - k = (xs.drop (k - 1)).length := by
          simp [List.length_drop]
          omega
        rw [hlen] at hc
        exact ih c hc

/-- Invariant backing the C1 scenario: running the batcher from a pending
accumulator strictly below the size bound, on a burst of events followed by a
single timer fire, emits exactly the size-`maxBatchSize` chunking of the
accumulated events. -/
theorem batcherRun_burst (evs : List FileEvent) :
    ∀ b : List FileEvent, b.length < maxBatchSize →
      batcherRun b (evs.map BatcherInput.ev ++ [BatcherInput.timer])
        = chunkList maxBatchSize (b ++ evs) := by
  induction evs with
  | nil =>
    intro b hb
    simp only [List.map_nil, List.nil_append, List.append_nil, batcherRun]
    rcases eq_or_ne b [] with rfl | hne
    · simp [chunkList_nil]
    · rw [if_pos (by simp [List.length_pos_iff_ne_nil, hne]),
        chunkList_short maxBatchSize b hne (by norm_num [maxBatchSize]) (le_of_lt hb)]
  | cons e rest ih =>
    intro b hb
    simp only [List.map_cons, List.cons_append, batcherRun, List.append_eq]
    rcases Nat.lt_or_ge (b ++ [e]).length maxBatchSize with hlt | hge
    · rw [if_neg (by omega), ih (b ++ [e]) hlt, List.append_assoc]
      simp
    · have hlen : (b ++ [e]).length = maxBatchSize := by
        simp only [List.length_append, List.length_cons, List.length_nil] at hge ⊢
        omega
      rw [if_pos hge, ih [] (by norm_num [maxBatchSize])]
      have hsplit : b ++ e :: rest = (b ++ [e]) ++ rest := by simp
      rw [List.nil_append, hsplit,
        chunkList_ne_nil maxBatchSize ((b ++ [e]) ++ rest) (by simp)
          (by norm_num [maxBatchSize]),
        List.take_left' hlen, List.drop_left' hlen]

/-! ## StagedStateMonitor (the gitTicker case of main's select loop,
src/unnamed/part_001 lines 99-124) -/

/-- `git.StagedState`, as consumed by package main: a fingerprint hash of the
staging area plus the staged file list. -/
structure StagedState where
  Hash : GoStr
  StagedFiles : List GoStr
deriving DecidableEq, Repr

/-- One gitTicker tick of main's select loop (src/unnamed/part_001 lines
111-118).  `r` is the outcome of `git.GetStagedState()` — an external
shell-out, modelled as an oracle value, `none` standing for `err ≠ nil`.
Returns the new `lastStagedHash` and whether `processStagedChange` was
invoked: the source runs the body iff `err == nil && state.Hash !=
lastStagedHash`, and assigns `lastStagedHash = state.Hash` before calling
`processStagedChange`. -/
def monitorStep (lastStagedHash : GoStr) (r : Option StagedState) : GoStr × Bool :=
  match r with
  | some state =>
      if state.Hash ≠ lastStagedHash then (state.Hash, true) else (lastStagedHash, false)
  | none => (lastStagedHash, false)

/-- The per-tick trigger sequence of the monitor over a run of gitTicker
ticks, threading `lastStagedHash` through `monitorStep`.  In main,
`lastStagedHash` is declared as `var lastStagedHash string`, so the run
starts from the empty string. -/
def monitorRun (lastStagedHash : GoStr) : List (Option StagedState) → List Bool
  | [] => []
  | r :: rest =>
      (monitorStep lastStagedHash r).2 :: monitorRun (monitorStep lastStagedHash r).1 rest

/-- The hash retained after servicing a sequence of ticks. -/
def retainedHash (h : GoStr) (ticks : List (Option StagedState)) : GoStr :=
  ticks.foldl (fun h r => (monitorStep h r).1) h

/-- The StagedStateMonitor protocol as the spec words it (§4.4): the baseline
is absent on the first poll; a successful fetch with no prior baseline
records the baseline and must NOT trigger; afterwards a successful fetch
triggers iff its hash differs from the baseline; a failed fetch changes
nothing.  This definition follows the spec's words, for comparison with the
source's `monitorStep`. -/
def specMonitorStep (baseline : Option GoStr) (r : Option StagedState) :
    Option GoStr × Bool :=
  match r with
  | some state =>
      match baseline with
      | none => (some state.Hash, false)
      | some prev =>
          if state.Hash ≠ prev then (some state.Hash, true) else (baseline, false)
  | none => (baseline, false)

/-- Run of the spec-worded monitor, starting from an absent baseline. -/
def specMonitorRun (baseline : Option GoStr) : List (Option StagedState) → List Bool
  | [] => []
  | r :: rest =>
      (specMonitorStep baseline r).2 :: specMonitorRun (specMonitorStep baseline r).1 rest

/-! ## ReviewDispatcher (main's select loop and the process functions,
src/unnamed/part_001 lines 103-125, 130-149, 208-253, 257-297) -/

/-- The fields of `config.Config` that `isIgnoredFile` reads: the user ignore
patterns and the log file path (`cfg.Ignore`, `cfg.Logs.File`). -/
structure Config where
  Ignore : List GoStr
  LogsFile : GoStr
deriving DecidableEq, Repr

def gitInfixStr : GoStr := ['/', '.', 'g', 'i', 't', '/']

def gitPfxStr : GoStr := ['.', 'g', 'i', 't', '/']

/-- `main.isIgnoredFile` (src/unnamed/part_001 lines 130-149): always ignore
paths containing "/.git/" or starting with ".git/", ignore paths containing
the application's own log file path, then check the user ignore patterns by
substring containment (`strings.Contains`, not glob, at this layer). -/
def isIgnoredFile (file : GoStr) (cfg : Config) : Bool :=
  if goContains file gitInfixStr || hasPfx file gitPfxStr then true
  else if goContains file cfg.LogsFile then true
  else cfg.Ignore.any (fun pattern => goContains file pattern)

/-- `git.Diff` (src/git/git.go lines 10-13). -/
structure Diff where
  FilePath : GoStr
  Content : GoStr
deriving DecidableEq, Repr

/-- External calls a process function can make, in order: a (staged) diff
fetch with the file-list argument, the log tail read, and the spawning of the
detached LLM generation goroutine. -/
inductive ExtCall where
  | diffFetch (files : List GoStr)
  | stagedDiffFetch (files : List GoStr)
  | logTail
  | llmLaunch
deriving DecidableEq, Repr

/-- Call trace of `main.processBatch` (src/unnamed/part_001 lines 208-253).
`getDiff` models `git.GetDiff` (an external shell-out; `none` stands for
`err ≠ nil`).  The source collects non-ignored event paths into a Go map and
iterates it in unspecified order; the model uses the deduplicated list (the
claims settled here do not depend on the order).  The source returns before
any external call when the deduplicated set is empty; otherwise it calls
`git.GetDiff`, returns if that errs or is empty, and else reads the log tail
and launches the LLM goroutine. -/
def processBatchCalls (events : List FileEvent) (cfg : Config)
    (getDiff : List GoStr → Option (List Diff)) : List ExtCall :=
  let fileSet := ((events.map FileEvent.Path).filter (fun p => !(isIgnoredFile p cfg))).dedup
  if fileSet.length = 0 then []
  else
    ExtCall.diffFetch fileSet ::
      match getDiff fileSet with
      | none => []
      | some ds => if ds.length = 0 then [] else [ExtCall.logTail, ExtCall.llmLaunch]

/-- Call trace of `main.processStagedChange` (src/unnamed/part_001 lines
257-297).  `getStagedDiff` models `git.GetStagedDiff` (external; `none`
stands for `err ≠ nil`).  The source returns early only when the RAW staged
file list is empty; it then filters ignored files and passes the filtered
list — possibly empty — to `git.GetStagedDiff`. -/
def processStagedChangeCalls (state : StagedState) (cfg : Config)
    (getStagedDiff : List GoStr → Option (List Diff)) : List ExtCall :=
  if state.StagedFiles.length = 0 then []
  else
    ExtCall.stagedDiffFetch (state.StagedFiles.filter (fun f => !(isIgnoredFile f cfg))) ::
      match getStagedDiff (state.StagedFiles.filter (fun f => !(isIgnoredFile f cfg))) with
      | none => []
      | some ds => if ds.length = 0 then [] else [ExtCall.logTail, ExtCall.llmLaunch]

/-- One arrival the main loop could react to: a batch sitting on `batchChan`,
a gitTicker tick (with the `git.GetStagedState` outcome), or SIGINT/SIGTERM
on `sigChan`. -/
inductive MainInput where
  | batchArrival (b : List FileEvent)
  | gitTick (r : Option StagedState)
  | sigint
deriving DecidableEq, Repr

/-- Observable servicing actions of main's select loop. -/
inductive MainAction where
  | stagedReview (s : StagedState)
  | shutdown
deriving DecidableEq, Repr

/-- Main's select loop (src/unnamed/part_001 lines 103-125), translated case
by case.  The select multiplexes ONLY `gitTicker.C` and `sigChan`: the
`batchChan` case is commented out in the source ("Disabled file watching for
now"), so a batch arriving on `batchChan` is never received and produces no
servicing action — the loop state is unchanged.  A tick runs the
`monitorStep` logic and invokes `processStagedChange` on a trigger; SIGINT
prints, closes `done` and returns. -/
def mainRun (lastStagedHash : GoStr) : List MainInput → List MainAction
  | [] => []
  | MainInput.batchArrival _ :: rest => mainRun lastStagedHash rest
  | MainInput.gitTick none :: rest => mainRun lastStagedHash rest
  | MainInput.gitTick (some state) :: rest =>
      if state.Hash ≠ lastStagedHash then
        MainAction.stagedReview state :: mainRun state.Hash rest
      else mainRun lastStagedHash rest
  | MainInput.sigint :: _ => [MainAction.shutdown]

/-! ## ChangeWatcher runtime pipeline (watcher.Start and watcher.shouldIgnore,
src/watcher/watcher.go lines 282-310 and 341-350) -/

/-- `watcher.shouldIgnore` (src/watcher/watcher.go lines 341-350): some
ignore pattern matches the path's basename via `filepath.Match`.
`filepath.Match` is Go standard library (external to this repository) and is
passed as an oracle `matchFn`; `none` stands for `err ≠ nil`, and the source
counts a pattern only when `err == nil && matched`. -/
def shouldIgnore (matchFn : GoStr → GoStr → Option Bool) (ignore : List GoStr)
    (path : GoStr) : Bool :=
  ignore.any (fun pattern =>
    match matchFn pattern (goBase path) with
    | some matched => matched
    | none => false)

/-- One iteration of `watcher.Start`'s event goroutine on a raw fsnotify
event name (src/watcher/watcher.go lines 286-300): drop the event when
`shouldIgnore` matches the RAW path, otherwise emit one `FileEvent` carrying
`normalizePath` of the raw path. -/
def watcherStep (matchFn : GoStr → GoStr → Option Bool) (ignore : List GoStr)
    (raw : GoStr) : Option FileEvent :=
  if shouldIgnore matchFn ignore raw then none
  else some ⟨normalizePath raw⟩

/-- The event stream `watcher.Start` sends on `w.events`, over a sequence of
raw fsnotify event names. -/
def watcherRun (matchFn : GoStr → GoStr → Option Bool) (ignore : List GoStr)
    (raws : List GoStr) : List FileEvent :=
  raws.filterMap (watcherStep matchFn ignore)

/-! ## Claim theorems -/

/-- C1: for a burst of N ≥ 1 events each arriving faster than the debounce
interval (so the debounce timer cannot fire between arrivals) followed by a
pause longer than the debounce interval (so the armed timer fires once,
which is a no-op when a size-triggered flush already emptied the
accumulator), the batcher emits all N events in arrival order, in
⌈N / maxBatchSize⌉ batches each of size ≤ maxBatchSize whose first
N / maxBatchSize have size exactly maxBatchSize; when N < maxBatchSize this
is exactly one batch holding the whole sequence.  The size check happens
before the timer rearm on each arrival (the `ev` case of `batcherRun`). -/
theorem eventBatcher_debounce_coalescing (evs : List FileEvent) (hne : evs ≠ []) :
    (batcherRun [] (evs.map BatcherInput.ev ++ [BatcherInput.timer])).flatten = evs
    ∧ (batcherRun [] (evs.map BatcherInput.ev ++ [BatcherInput.timer])).length
        = (evs.length + maxBatchSize - 1) / maxBatchSize
    ∧ (∀ c ∈ batcherRun [] (evs.map BatcherInput.ev ++ [BatcherInput.timer]),
        0 < c.length ∧ c.length ≤ maxBatchSize)
    ∧ (∀ c ∈ (batcherRun [] (evs.map BatcherInput.ev ++ [BatcherInput.timer])).take
          (evs.length / maxBatchSize), c.length = maxBatchSize)
    ∧ (evs.length < maxBatchSize →
        batcherRun [] (evs.map BatcherInput.ev ++ [BatcherInput.timer]) = [evs]) := by
  have hk : 0 < maxBatchSize := by norm_num [maxBatchSize]
  have hrun := batcherRun_burst evs [] hk
  rw [List.nil_append] at hrun
  rw [hrun]
  refine ⟨chunkList_flatten maxBatchSize hk evs, chunkList_length maxBatchSize hk evs,
    chunkList_sizes maxBatchSize hk evs, chunkList_full_chunks maxBatchSize hk evs, ?_⟩
  intro hlt
  exact chunkList_short maxBatchSize evs hne hk (le_of_lt hlt)

/-- Witness for C1 at the two-event burst of the spec's §8 scenario. -/
theorem eventBatcher_debounce_coalescing_witness :
    ([FileEvent.mk ['a'], FileEvent.mk ['b']] : List FileEvent) ≠ []
    ∧ (batcherRun [] ([FileEvent.mk ['a'], FileEvent.mk ['b']].map BatcherInput.ev
        ++ [BatcherInput.timer])).flatten = [FileEvent.mk ['a'], FileEvent.mk ['b']] :=
  ⟨by decide,
   (eventBatcher_debounce_coalescing [FileEvent.mk ['a'], FileEvent.mk ['b']] (by decide)).1⟩

/-- C4: every batch the batcher hands to `out` is non-empty, for every
pending accumulator and every interleaving of arrivals, timer fires and
shutdown.  (The initial accumulator of `startBatcher` is the empty list;
quantifying over `acc` covers every reachable pending state.) -/
theorem batcher_no_empty_batch (inputs : List BatcherInput) (acc b : List FileEvent)
    (hb : b ∈ batcherRun acc inputs) : 0 < b.length := by
  induction inputs generalizing acc b with
  | nil => simp [batcherRun] at hb
  | cons i rest ih =>
    match i with
    | BatcherInput.done =>
      rw [batcherRun] at hb
      by_cases hl : acc.length > 0
      · rw [if_pos hl] at hb
        rw [List.mem_singleton] at hb
        subst hb
        exact hl
      · rw [if_neg hl] at hb
        simp at hb
    | BatcherInput.ev e =>
      rw [batcherRun] at hb
      by_cases hs : maxBatchSize ≤ (acc ++ [e]).length
      · rw [if_pos hs] at hb
        rcases List.mem_cons.mp hb with rfl | hb
        · simp
        · exact ih [] b hb
      · rw [if_neg hs] at hb
        exact ih (acc ++ [e]) b hb
    | BatcherInput.timer =>
      rw [batcherRun] at hb
      by_cases hl : acc.length > 0
      · rw [if_pos hl] at hb
        rcases List.mem_cons.mp hb with rfl | hb
        · exact hl
        · exact ih [] b hb
      · rw [if_neg hl] at hb
        exact ih acc b hb

/-- Witness for C4: a one-event run whose debounce flush emits that event. -/
theorem batcher_no_empty_batch_witness :
    [FileEvent.mk ['a']]
        ∈ batcherRun [] [BatcherInput.ev (FileEvent.mk ['a']), BatcherInput.timer]
    ∧ 0 < ([FileEvent.mk ['a']] : List FileEvent).length :=
  ⟨by decide,
   batcher_no_empty_batch [BatcherInput.ev (FileEvent.mk ['a']), BatcherInput.timer]
     [] [FileEvent.mk ['a']] (by decide)⟩

/-- C5: on the `done` signal the batcher emits exactly the pending
accumulator as one final batch when it is non-empty, emits nothing when it
is empty, and terminates either way (the remaining inputs are never
serviced). -/
theorem batcher_shutdown_flush (acc : List FileEvent) (rest : List BatcherInput) :
    batcherRun acc (BatcherInput.done :: rest)
      = if acc.length > 0 then [acc] else [] := rfl

theorem monitorStep_snd (h : GoStr) (r : Option StagedState) :
    (monitorStep h r).2
      = match r with
        | some st => decide (st.Hash ≠ h)
        | none => false := by
  cases r with
  | none => rfl
  | some st =>
    by_cases hc : st.Hash ≠ h
    · simp [monitorStep, hc]
    · simp [monitorStep, hc]

theorem monitorRun_append (h : GoStr) (pre rs : List (Option StagedState)) :
    monitorRun h (pre ++ rs) = monitorRun h pre ++ monitorRun (retainedHash h pre) rs := by
  induction pre generalizing h with
  | nil => simp [monitorRun, retainedHash]
  | cons r pre ih =>
    simp only [List.cons_append, monitorRun, retainedHash, List.foldl_cons, List.append_eq]
    rw [ih]
    simp [retainedHash]

theorem monitorRun_stable (rs : List (Option StagedState)) (H : GoStr)
    (hsame : ∀ s : StagedState, some s ∈ rs → s.Hash = H) :
    monitorRun H rs = List.replicate rs.length false ∧ retainedHash H rs = H := by
  induction rs with
  | nil => simp [monitorRun, retainedHash]
  | cons r rs ih =>
    have hstep : monitorStep H r = (H, false) := by
      cases r with
      | none => rfl
      | some s =>
        have hs : s.Hash = H := hsame s (List.mem_cons_self _ _)
        simp [monitorStep, hs]
    have ih' := ih (fun s hs => hsame s (List.mem_cons_of_mem _ hs))
    refine ⟨?_, ?_⟩
    · simp [monitorRun, hstep, List.replicate_succ, ih'.1]
    · simp only [retainedHash, List.foldl_cons, hstep]
      exact ih'.2

/-- C3 counterexample: on the very first poll tick, with a successful fetch
whose hash is non-empty, the source triggers (its baseline starts as the
empty string), while the spec's protocol records the baseline silently. -/
theorem stagedMonitor_first_tick_triggers_cex :
    monitorRun [] [some (StagedState.mk ['h'] [])] = [true]
    ∧ specMonitorRun none [some (StagedState.mk ['h'] [])] = [false] := by decide

/-- C3 amended: the baseline starts as the empty string, so the tick after
any prefix of ticks triggers iff its fetch succeeds and the fetched hash
differs from the hash retained from the last successful tick (initially the
empty string — in particular a first successful tick with a non-empty hash
triggers); a failed tick emits no trigger and leaves the retained baseline
unchanged (it is not a comparison point). -/
theorem stagedMonitor_trigger_iff (pre : List (Option StagedState)) (r : Option StagedState) :
    monitorRun [] (pre ++ [r])
      = monitorRun [] pre
          ++ [match r with
              | some st => decide (st.Hash ≠ retainedHash [] pre)
              | none => false]
    ∧ retainedHash [] (pre ++ [none]) = retainedHash [] pre := by
  constructor
  · rw [monitorRun_append]
    simp only [monitorRun]
    rw [monitorStep_snd]
  · simp [retainedHash, List.foldl_append, monitorStep]

/-- C10: once a tick triggers for a state `st` (its hash differs from the
current baseline), the baseline becomes `st.Hash` at that very tick — before
and independently of the dispatched `processStagedChange`, whose outcome
never feeds back into `lastStagedHash` — and as long as every later fetch
fails or returns the same hash, no further dispatch is initiated: the same
staged state triggers at most one dispatch, even if that dispatch was
discarded. -/
theorem stagedHash_single_dispatch (h : GoStr) (st : StagedState)
    (rs : List (Option StagedState)) (hne : st.Hash ≠ h)
    (hsame : (rs.all fun r =>
        match r with
        | some s => s.Hash == st.Hash
        | none => true) = true) :
    monitorRun h (some st :: rs) = true :: List.replicate rs.length false
    ∧ retainedHash h (some st :: rs) = st.Hash := by
  have hstep : monitorStep h (some st) = (st.Hash, true) := by
    simp [monitorStep, hne]
  have hsame' : ∀ s : StagedState, some s ∈ rs → s.Hash = st.Hash := by
    intro s hs
    have hall := List.all_eq_true.mp hsame _ hs
    simpa using hall
  have hst := monitorRun_stable rs st.Hash hsame'
  refine ⟨?_, ?_⟩
  · simp [monitorRun, hstep, hst.1]
  · simp only [retainedHash, List.foldl_cons, hstep]
    exact hst.2

/-- Witness for C10: a trigger for hash "h", then a failed tick and a tick
refetching the same hash, neither of which dispatches again. -/
theorem stagedHash_single_dispatch_witness :
    (StagedState.mk ['h'] [['f']]).Hash ≠ ([] : GoStr)
    ∧ monitorRun []
        [some (StagedState.mk ['h'] [['f']]), none, some (StagedState.mk ['h'] [])]
      = [true, false, false] :=
  ⟨by decide,
   (stagedHash_single_dispatch [] (StagedState.mk ['h'] [['f']])
     [none, some (StagedState.mk ['h'] [])] (by decide) (by decide)).1⟩

/-- C2 counterexample: a batch flushed onto `batchChan` is never serviced by
the main select loop — its case is commented out — so no action (in
particular no generation request) results even though the batch's resolved
file set is non-empty and `processBatch`, had it been invoked, would have
fetched a diff for it. -/
theorem mainLoop_batch_never_serviced_cex :
    mainRun [] [MainInput.batchArrival [FileEvent.mk ['a']]] = []
    ∧ processBatchCalls [FileEvent.mk ['a']] (Config.mk [] ['g', '.', 'l', 'o', 'g'])
        (fun _ => none) = [ExtCall.diffFetch [['a']]] := by decide

/-- C2 amended: the main select loop multiplexes only the gitTicker tick and
the shutdown signal; the `batchChan` case is disabled (commented out) in the
source, so a flushed batch arriving at any point of a run is never serviced
and leaves the loop's state and emitted actions unchanged.  `processBatch`
implements the resolve/filter/launch contract but is unreachable from the
loop. -/
theorem mainLoop_batch_case_disabled (h : GoStr) (pre : List MainInput)
    (b : List FileEvent) (post : List MainInput) :
    mainRun h (pre ++ MainInput.batchArrival b :: post) = mainRun h (pre ++ post) := by
  induction pre generalizing h with
  | nil => rfl
  | cons i pre ih =>
    match i with
    | MainInput.batchArrival b' => exact ih h
    | MainInput.gitTick none => exact ih h
    | MainInput.gitTick (some st) =>
      simp only [List.cons_append, mainRun, List.append_eq]
      by_cases hc : st.Hash ≠ h
      · rw [if_pos hc, if_pos hc, ih st.Hash]
      · rw [if_neg hc, if_neg hc, ih h]
    | MainInput.sigint => rfl

theorem hasSuffix_eq_true (s suf : GoStr) :
    hasSuffix s suf = true
      ↔ suf.length ≤ s.length ∧ s.drop (s.length - suf.length) = suf := by
  simp [hasSuffix]

theorem trimSuffix_append {s suf : GoStr} (h : hasSuffix s suf = true) :
    trimSuffix s suf ++ suf = s := by
  obtain ⟨hle, hdrop⟩ := (hasSuffix_eq_true s suf).mp h
  rw [trimSuffix, if_pos h]
  conv_rhs => rw [← List.take_append_drop (s.length - suf.length) s]
  rw [hdrop]

theorem hasSuffix_swp_tilde (p : GoStr) (h : hasSuffix p swpStr = true) :
    hasSuffix p tildeStr = false := by
  cases hb : hasSuffix p tildeStr with
  | false => rfl
  | true =>
    exfalso
    obtain ⟨hle4, hdrop4⟩ := (hasSuffix_eq_true p swpStr).mp h
    obtain ⟨hle1, hdrop1⟩ := (hasSuffix_eq_true p tildeStr).mp hb
    simp [swpStr, tildeStr] at hle4 hle1 hdrop4 hdrop1
    have key : List.drop 3 (List.drop (p.length - 4) p) = List.drop (p.length - 1) p := by
      rw [List.drop_drop]
      congr 1
      omega
    rw [hdrop4, hdrop1] at key
    simp at key

theorem hasSuffix_tmp_tilde (p : GoStr) (h : hasSuffix p tmpStr = true) :
    hasSuffix p tildeStr = false := by
  cases hb : hasSuffix p tildeStr with
  | false => rfl
  | true =>
    exfalso
    obtain ⟨hle4, hdrop4⟩ := (hasSuffix_eq_true p tmpStr).mp h
    obtain ⟨hle1, hdrop1⟩ := (hasSuffix_eq_true p tildeStr).mp hb
    simp [tmpStr, tildeStr] at hle4 hle1 hdrop4 hdrop1
    have key : List.drop 3 (List.drop (p.length - 4) p) = List.drop (p.length - 1) p := by
      rw [List.drop_drop]
      congr 1
      omega
    rw [hdrop4, hdrop1] at key
    simp at key

theorem hasSuffix_tmp_swp (p : GoStr) (h : hasSuffix p tmpStr = true) :
    hasSuffix p swpStr = false := by
  cases hb : hasSuffix p swpStr with
  | false => rfl
  | true =>
    exfalso
    obtain ⟨hle4, hdrop4⟩ := (hasSuffix_eq_true p tmpStr).mp h
    obtain ⟨hle4', hdrop4'⟩ := (hasSuffix_eq_true p swpStr).mp hb
    simp [tmpStr, swpStr] at hle4 hle4' hdrop4 hdrop4'
    rw [hdrop4] at hdrop4'
    simp at hdrop4'

/-- C6 counterexample: for the path "#" (basename of length 1) the spec's
rule 5, guarded by basename length > 1, does not match and the path must be
returned unchanged, but the source has no length guard: it strips both "#"
occurrences — the same single character — and collapses the path to ".". -/
theorem normalizePath_hash_guard_cex :
    normalizePath ['#'] = ['.']
    ∧ specNormalizePath ['#'] = ['#']
    ∧ normalizePath ['#'] ≠ specNormalizePath ['#'] := by decide

/-- C6 amended: `normalizePath` applies exactly the first matching rule of
its ordered five-rule list and then stops — trailing "~", trailing ".swp",
trailing ".tmp", basename starting with ".#", and basename starting AND
ending with "#" with no minimum-length guard; the basename rules rebuild the
path as the lexically cleaned join of the parent directory and the stripped
basename; when no rule matches the path is returned unchanged. -/
theorem normalizePath_first_matching_rule (p : GoStr) :
    normalizePath p = applyFirstRule codeNormRules p := rfl

/-- C7 counterexample: stripping one suffix can expose another, so
normalization is not idempotent — "a~~" normalizes to "a~", which normalizes
again to "a". -/
theorem normalizePath_not_idempotent_cex :
    normalizePath (normalizePath ['a', '~', '~']) ≠ normalizePath ['a', '~', '~'] := by decide

/-- C7 amended: for every path ending in "~", ".swp" or ".tmp" the
normalizer removes exactly that one suffix and changes nothing else (the
result followed by the suffix is the original path); idempotence, however,
fails (see the counterexample). -/
theorem normalizePath_strips_one_suffix (p : GoStr) :
    (hasSuffix p tildeStr = true → normalizePath p ++ tildeStr = p)
    ∧ (hasSuffix p swpStr = true → normalizePath p ++ swpStr = p)
    ∧ (hasSuffix p tmpStr = true → normalizePath p ++ tmpStr = p) := by
  refine ⟨fun h => ?_, fun h => ?_, fun h => ?_⟩
  · rw [normalizePath, if_pos h]
    exact trimSuffix_append h
  · have h1 := hasSuffix_swp_tilde p h
    rw [normalizePath, h1]
    simp only [Bool.false_eq_true, if_false]
    rw [if_pos h]
    exact trimSuffix_append h
  · have h1 := hasSuffix_tmp_tilde p h
    have h2 := hasSuffix_tmp_swp p h
    rw [normalizePath, h1, h2]
    simp only [Bool.false_eq_true, if_false]
    rw [if_pos h]
    exact trimSuffix_append h

/-- Witness for C7 at the path "x~". -/
theorem normalizePath_strips_one_suffix_witness :
    hasSuffix ['x', '~'] tildeStr = true
    ∧ normalizePath ['x', '~'] ++ tildeStr = ['x', '~'] :=
  ⟨by decide, (normalizePath_strips_one_suffix ['x', '~']).1 (by decide)⟩

/-- C8: for every raw notification, `shouldIgnore` is consulted on the RAW
path's basename (before any normalization): a glob match by some ignore
pattern discards the notification silently, and otherwise exactly one
`ChangeEvent` is emitted whose path is the `normalizePath` output of the raw
path, so every event reaching the batcher carries a normalized path — the
raw OS-reported path itself is never forwarded. -/
theorem changeWatcher_pipeline (matchFn : GoStr → GoStr → Option Bool)
    (ignore : List GoStr) (raws : List GoStr) :
    watcherRun matchFn ignore raws
      = (raws.filter (fun r => !(shouldIgnore matchFn ignore r))).map
          (fun r => FileEvent.mk (normalizePath r))
    ∧ (∀ r : GoStr, shouldIgnore matchFn ignore r = true
        ↔ ∃ pat ∈ ignore, matchFn pat (goBase r) = some true)
    ∧ (∀ e ∈ watcherRun matchFn ignore raws,
        ∃ r ∈ raws, shouldIgnore matchFn ignore r = false ∧ e.Path = normalizePath r) := by
  have hmain :
      watcherRun matchFn ignore raws
        = (raws.filter (fun r => !(shouldIgnore matchFn ignore r))).map
            (fun r => FileEvent.mk (normalizePath r)) := by
    induction raws with
    | nil => rfl
    | cons r rest ih =>
      rw [watcherRun, List.filterMap_cons, List.filter_cons]
      cases hs : shouldIgnore matchFn ignore r with
      | false =>
        simp only [watcherStep, hs, Bool.false_eq_true, if_false, Bool.not_false, if_true,
          List.map_cons]
        rw [← watcherRun, ih]
      | true =>
        simp only [watcherStep, hs, if_true, Bool.not_true, Bool.false_eq_true, if_false]
        rw [← watcherRun, ih]
  refine ⟨hmain, ?_, ?_⟩
  · intro r
    rw [shouldIgnore, List.any_eq_true]
    constructor
    · rintro ⟨pat, hpat, hm⟩
      refine ⟨pat, hpat, ?_⟩
      revert hm
      cases matchFn pat (goBase r) with
      | none => intro hm; exact absurd hm (by simp)
      | some m => intro hm; simp at hm; simp [hm]
    · rintro ⟨pat, hpat, hm⟩
      exact ⟨pat, hpat, by rw [hm]⟩
  · intro e he
    rw [hmain] at he
    obtain ⟨r, hr, rfl⟩ := List.mem_map.mp he
    obtain ⟨hmem, hcond⟩ := List.mem_filter.mp hr
    exact ⟨r, hmem, by simpa using hcond, rfl⟩

/-- Witness for C8: pattern "x" discards the raw event "x"; the raw event
"a~" passes the filter and is emitted in normalized form "a". -/
theorem changeWatcher_pipeline_witness :
    watcherRun (fun pat name => some (pat == name)) [['x']] [['x'], ['a', '~']]
      = [FileEvent.mk ['a']] :=
  ((changeWatcher_pipeline (fun pat name => some (pat == name)) [['x']]
      [['x'], ['a', '~']]).1).trans (by decide)

/-- Configuration used by the C9 counterexample: no user ignore patterns and
log file "app.log". -/
def cfgEx : Config := Config.mk [] ['a', 'p', 'p', '.', 'l', 'o', 'g']

/-- C9 counterexample: a staged trigger whose only staged file ".git/x" is
ignored has an empty resolved file set, yet `processStagedChange` — whose
early return checks only the RAW staged list — still performs the staged
diff fetch (with an empty file-list argument): not "no side effects". -/
theorem dispatcher_staged_empty_set_cex :
    ((StagedState.mk ['h'] [['.', 'g', 'i', 't', '/', 'x']]).StagedFiles.filter
        (fun f => !(isIgnoredFile f cfgEx))) = []
    ∧ processStagedChangeCalls (StagedState.mk ['h'] [['.', 'g', 'i', 't', '/', 'x']])
        cfgEx (fun _ => none) = [ExtCall.stagedDiffFetch []] := by decide

/-- C9 amended: a Batch trigger whose post-filter file set is empty is
discarded with no side effects (no diff fetch, no log tail, no generation
request); a staged trigger is discarded with no side effects only when its
RAW staged list is empty; when the raw list is non-empty but every staged
file is filtered out, the dispatcher still calls the staged-diff provider
with an empty file list, and proceeds to the log tail and a generation
request only if that call succeeds with a non-empty diff list. -/
theorem dispatcher_empty_fileset_behavior (events : List FileEvent) (state : StagedState)
    (cfg : Config) (getDiff getStagedDiff : List GoStr → Option (List Diff))
    (hbatch : ((events.map FileEvent.Path).filter (fun p => !(isIgnoredFile p cfg))).dedup = [])
    (hstaged : state.StagedFiles.filter (fun f => !(isIgnoredFile f cfg)) = []) :
    processBatchCalls events cfg getDiff = []
    ∧ (state.StagedFiles.length = 0 → processStagedChangeCalls state cfg getStagedDiff = [])
    ∧ (state.StagedFiles.length ≠ 0 →
        processStagedChangeCalls state cfg getStagedDiff
          = ExtCall.stagedDiffFetch []
              :: (match getStagedDiff [] with
                  | none => []
                  | some ds =>
                      if ds.length = 0 then [] else [ExtCall.logTail, ExtCall.llmLaunch])) := by
  refine ⟨?_, fun hz => ?_, fun hnz => ?_⟩
  · rw [processBatchCalls]
    simp [hbatch]
  · rw [processStagedChangeCalls, if_pos hz]
  · rw [processStagedChangeCalls, if_neg hnz, hstaged]

/-- Witness for C9: a batch holding only the ignored path ".git/x" resolves
to the empty set and produces no external call. -/
theorem dispatcher_empty_fileset_behavior_witness :
    (([FileEvent.mk ['.', 'g', 'i', 't', '/', 'x']].map FileEvent.Path).filter
        (fun p => !(isIgnoredFile p cfgEx))).dedup = []
    ∧ processBatchCalls [FileEvent.mk ['.', 'g', 'i', 't', '/', 'x']] cfgEx
        (fun _ => none) = [] :=
  ⟨by decide,
   (dispatcher_empty_fileset_behavior [FileEvent.mk ['.', 'g', 'i', 't', '/', 'x']]
      (StagedState.mk ['h'] [['.', 'g', 'i', 't', '/', 'x']]) cfgEx
      (fun _ => none) (fun _ => none) (by decide) (by decide)).1⟩

end Glimpse
